import Mathlib

/-!
Shallow embedding of the core data structures and algorithms of the OpenSPH
repository (particle storage, neighbour search, symmetric SPH evaluation and
Barnes-Hut gravity), with theorems checking the natural-language specification
against the code.

Scalars (`Float` in the code) are embedded as rationals; the square root,
which only feeds the magnitude of pairwise gravity terms, is passed around as
an explicit function parameter so that all definitions stay computable.
-/

/-- The 4-component vector of the code (`objects/geometry/Vector.h`): three
spatial components plus a fourth lane that stores the smoothing length `h`. -/
structure Vec4 where
  x : ℚ
  y : ℚ
  z : ℚ
  hc : ℚ
deriving DecidableEq, Repr

namespace Vec4

def add (a b : Vec4) : Vec4 := ⟨a.x + b.x, a.y + b.y, a.z + b.z, a.hc + b.hc⟩

def sub (a b : Vec4) : Vec4 := ⟨a.x - b.x, a.y - b.y, a.z - b.z, a.hc - b.hc⟩

def smul (c : ℚ) (a : Vec4) : Vec4 := ⟨c * a.x, c * a.y, c * a.z, c * a.hc⟩

def zero : Vec4 := ⟨0, 0, 0, 0⟩

instance : Add Vec4 := ⟨add⟩

instance : Sub Vec4 := ⟨sub⟩

instance : Zero Vec4 := ⟨zero⟩

instance : SMul ℚ Vec4 := ⟨smul⟩

theorem add_def (a b : Vec4) : a + b = ⟨a.x + b.x, a.y + b.y, a.z + b.z, a.hc + b.hc⟩ := rfl

theorem zero_def : (0 : Vec4) = ⟨0, 0, 0, 0⟩ := rfl

instance : AddCommMonoid Vec4 where
  add_assoc a b c := by
    cases a; cases b; cases c
    simp only [add_def, Vec4.mk.injEq]
    exact ⟨by ring, by ring, by ring, by ring⟩
  zero_add a := by cases a; simp [add_def, zero_def]
  add_zero a := by cases a; simp [add_def, zero_def]
  add_comm a b := by
    cases a; cases b
    simp only [add_def, Vec4.mk.injEq]
    exact ⟨by ring, by ring, by ring, by ring⟩
  nsmul := nsmulRec

end Vec4

/-- `dot` of the code: the scalar product uses only the three spatial
components, the fourth lane (smoothing length) is excluded. -/
def dot (a b : Vec4) : ℚ := a.x * b.x + a.y * b.y + a.z * b.z

/-- `getSqrLength` of the code: squared length of the spatial part. -/
def getSqrLength (v : Vec4) : ℚ := dot v v

theorem getSqrLength_nonneg (v : Vec4) : 0 ≤ getSqrLength v := by
  have hx := mul_self_nonneg v.x
  have hy := mul_self_nonneg v.y
  have hz := mul_self_nonneg v.z
  unfold getSqrLength dot
  linarith

/-! ## Range and derivative clamping (`objects/wrappers/Range.h`) -/

/-- `Range` of the code: a closed interval given by its two bounds. -/
structure Range where
  minBound : ℚ
  maxBound : ℚ
deriving DecidableEq, Repr

namespace Range

/-- `Range::contains`. -/
def contains (r : Range) (value : ℚ) : Prop := r.minBound ≤ value ∧ value ≤ r.maxBound

/-- `Range::clamp`: `max(minBound, min(value, maxBound))`. -/
def clamp (r : Range) (value : ℚ) : ℚ := max r.minBound (min value r.maxBound)

/-- `Range::lower`. -/
def lower (r : Range) : ℚ := r.minBound

/-- `Range::upper`. -/
def upper (r : Range) : ℚ := r.maxBound

end Range

/-- `clampWithDerivative<Float>` of the code: returns the clamped value
together with the derivative, which is zeroed whenever the value sits at (or
beyond) a bound and the derivative points further out of the interval. -/
def clampWithDerivative (v dv : ℚ) (range : Range) : ℚ × ℚ :=
  let zeroDeriv : Bool := (v ≥ range.upper ∧ dv > 0) ∨ (v ≤ range.lower ∧ dv < 0)
  (range.clamp v, if zeroDeriv then 0 else dv)

/-! ## Quantities and storage (`storage/Quantity.h`, `storage/Storage.h`) -/

/-- `TemporalEnum` of the code, restricted to the three values for which a
`Detail::Holder` specialization exists (the two remaining enumerators `ALL`
and `HIGHEST_ORDER` are pure getter flags and appear in `TFlags` below). -/
inductive TemporalEnum where
  | CONST
  | FIRST_ORDER
  | SECOND_ORDER
deriving DecidableEq, Repr

/-- Number of derivative buffers carried by a holder of the given order. -/
def TemporalEnum.orderNum : TemporalEnum → ℕ
  | .CONST => 0
  | .FIRST_ORDER => 1
  | .SECOND_ORDER => 2

/-- A set of `TemporalEnum` flags (`Flags<TemporalEnum>` of the code), one
boolean per enumerator. -/
structure TFlags where
  fConst : Bool
  fFirst : Bool
  fSecond : Bool
  fAll : Bool
  fHighest : Bool
deriving DecidableEq, Repr

/-- `ValueEnum` of the code. `Detail::Holder` is instantiated only at `Float`
and `Vector` (the only `GetValueType` specializations present). -/
inductive ValueEnum where
  | SCALAR
  | VECTOR
deriving DecidableEq, Repr

/-- The buffers of `Detail::Holder<TValue, Type>`: the value array plus as
many derivative arrays as the temporal order requires. -/
inductive Holder (α : Type) where
  | const (v : List α)
  | firstOrder (v dv : List α)
  | secondOrder (v dv d2v : List α)
deriving DecidableEq, Repr

namespace Holder

/-- `PlaceHolder::getTemporalEnum` as implemented by each holder. -/
def getTemporalEnum : Holder α → TemporalEnum
  | .const _ => .CONST
  | .firstOrder _ _ => .FIRST_ORDER
  | .secondOrder _ _ _ => .SECOND_ORDER

/-- `Holder::conditionalClone`: copies the array when the condition holds and
returns an empty array otherwise. -/
def conditionalClone (array : List α) (condition : Bool) : List α :=
  if condition then array else []

/-- `Holder::clone` for each specialization, selecting buffers from the flags
exactly as the three overrides in `Quantity.h` do.  Note the asymmetry of the
source: for a second-order holder the first derivative is cloned under
`FIRST_ORDER` or `ALL` only, while for a first-order holder it is also cloned
under `HIGHEST_ORDER`. -/
def clone (h : Holder α) (flags : TFlags) : Holder α :=
  match h with
  | .const v => .const (conditionalClone v (flags.fConst || flags.fAll))
  | .firstOrder v dv =>
      .firstOrder (conditionalClone v (flags.fConst || flags.fAll))
        (conditionalClone dv (flags.fFirst || flags.fHighest || flags.fAll))
  | .secondOrder v dv d2v =>
      .secondOrder (conditionalClone v (flags.fConst || flags.fAll))
        (conditionalClone dv (flags.fFirst || flags.fAll))
        (conditionalClone d2v (flags.fSecond || flags.fHighest || flags.fAll))

/-- The value buffer of a holder. -/
def values : Holder α → List α
  | .const v => v
  | .firstOrder v _ => v
  | .secondOrder v _ _ => v

/-- The first-derivative buffer of a holder (empty for a const holder, which
carries none). -/
def derivatives : Holder α → List α
  | .const _ => []
  | .firstOrder _ dv => dv
  | .secondOrder _ dv _ => dv

/-- The second-derivative buffer of a holder (empty below second order). -/
def secondDerivatives : Holder α → List α
  | .const _ => []
  | .firstOrder _ _ => []
  | .secondOrder _ _ d2v => d2v

end Holder

/-- The dynamic type held by `Quantity::data`: a holder instantiated either at
`Float` (scalar column) or at `Vector`. -/
inductive QData where
  | scal (holder : Holder ℚ)
  | vec (holder : Holder Vec4)
deriving DecidableEq, Repr

namespace QData

/-- `PlaceHolder::getValueType`, given by the `GetValueType` trait. -/
def getValueType : QData → ValueEnum
  | .scal _ => .SCALAR
  | .vec _ => .VECTOR

/-- `PlaceHolder::getTemporalEnum`. -/
def getTemporalEnum : QData → TemporalEnum
  | .scal h => h.getTemporalEnum
  | .vec h => h.getTemporalEnum

/-- `PlaceHolder::clone` dispatched through the dynamic type. -/
def clone (d : QData) (flags : TFlags) : QData :=
  match d with
  | .scal h => .scal (h.clone flags)
  | .vec h => .vec (h.clone flags)

end QData

/-- `dynamic_cast<Detail::Holder<TValue, Type>*>` succeeds precisely when the
runtime class derives from (or equals) the target class.  The class hierarchy
declared in `Quantity.h` is
`Holder<V, SECOND_ORDER> : Holder<V, FIRST_ORDER> : Holder<V, CONST>`,
for each fixed value type `V`; this table transcribes it. -/
def derivedFrom : TemporalEnum → TemporalEnum → Bool
  | .CONST, .CONST => true
  | .CONST, _ => false
  | .FIRST_ORDER, .CONST => true
  | .FIRST_ORDER, .FIRST_ORDER => true
  | .FIRST_ORDER, .SECOND_ORDER => false
  | .SECOND_ORDER, _ => true

/-- `Quantity` of the code: a dynamic holder plus the integer key (`idx`,
defaulting to `-1`). -/
structure Quantity where
  data : QData
  idx : ℤ
deriving DecidableEq, Repr

namespace Quantity

/-- `Quantity::getKey`. -/
def getKey (q : Quantity) : ℤ := q.idx

/-- `Quantity::clone`: clones the data with the given flags, keeping the key. -/
def clone (q : Quantity) (flags : TFlags) : Quantity :=
  ⟨q.data.clone flags, q.idx⟩

/-- `Quantity::cast<TValue, Type>`: a `dynamic_cast` of the stored data to
`Holder<TValue, Type>`, returning `NOTHING` when the cast fails.  We model the
result as the data itself (the C++ cast returns the same object through a base
reference). -/
def cast (q : Quantity) (valueType : ValueEnum) (type : TemporalEnum) : Option QData :=
  if q.data.getValueType = valueType ∧ derivedFrom q.data.getTemporalEnum type then
    some q.data
  else
    none

/-- `Quantity::emplace<TValue, TEnum>(key)` with no further constructor
arguments: default-constructs the holder (all buffers empty) and sets the key. -/
def emplace (valueType : ValueEnum) (type : TemporalEnum) (key : ℤ) : Quantity :=
  match valueType, type with
  | .SCALAR, .CONST => ⟨.scal (.const []), key⟩
  | .SCALAR, .FIRST_ORDER => ⟨.scal (.firstOrder [] []), key⟩
  | .SCALAR, .SECOND_ORDER => ⟨.scal (.secondOrder [] [] []), key⟩
  | .VECTOR, .CONST => ⟨.vec (.const []), key⟩
  | .VECTOR, .FIRST_ORDER => ⟨.vec (.firstOrder [] []), key⟩
  | .VECTOR, .SECOND_ORDER => ⟨.vec (.secondOrder [] [] []), key⟩

end Quantity

/-- `Storage` of the code: the ordered array of quantities. -/
structure Storage where
  quantities : List Quantity
deriving DecidableEq, Repr

namespace Storage

/-- `Storage::size`: the number of stored quantities. -/
def size (s : Storage) : ℕ := s.quantities.length

/-- `Storage::insert<TValue, TEnum>(key)`: unconditionally emplaces a new
quantity and pushes it at the end of the array; no check against already
present keys is made. -/
def insert (s : Storage) (valueType : ValueEnum) (type : TemporalEnum) (key : ℤ) : Storage :=
  ⟨s.quantities ++ [Quantity.emplace valueType type key]⟩

/-- `Storage::getSingle`: linear search for the first quantity with the given
key; reaching the end of the array throws (`none` here). -/
def getSingle (s : Storage) (key : ℤ) : Option Quantity :=
  s.quantities.find? (fun q => q.getKey = key)

/-- `Storage::clone`: pushes a clone of every quantity, in order. -/
def clone (s : Storage) (flags : TFlags) : Storage :=
  ⟨s.quantities.map (fun q => q.clone flags)⟩

end Storage

/-- Appending the buffers of a second holder of identical shape
(`ar1.pushAll(ar2)` applied to every pair of corresponding buffers); holders
of different orders have different buffer lists and cannot be paired. -/
def Holder.pushAll : Holder α → Holder α → Option (Holder α)
  | .const v1, .const v2 => some (.const (v1 ++ v2))
  | .firstOrder v1 dv1, .firstOrder v2 dv2 => some (.firstOrder (v1 ++ v2) (dv1 ++ dv2))
  | .secondOrder v1 dv1 d2v1, .secondOrder v2 dv2 d2v2 =>
      some (.secondOrder (v1 ++ v2) (dv1 ++ dv2) (d2v1 ++ d2v2))
  | _, _ => none

/-- `pushAll` across the dynamic type: only holders of the same value type can
be paired. -/
def QData.pushAll : QData → QData → Option QData
  | .scal h1, .scal h2 => (h1.pushAll h2).map .scal
  | .vec h1, .vec h2 => (h1.pushAll h2).map .vec
  | _, _ => none

/-- Modelled from the spec: `storage/Iterate.h` (the `iteratePair` visitor) is
absent from the sources.  Its call site, `Storage::merge`, asserts that both
storages hold the same number of quantities ("must contain the same
quantities") and then lets `iteratePair<TemporalEnum::ALL>` call
`ar1.pushAll(ar2)` on every pair of corresponding buffers; we model the visitor
as pairing the two quantity arrays positionally and appending every buffer of
the second quantity to the matching buffer of the first.  A failed assertion
or a visit of structurally incompatible quantities is modelled as `none`. -/
def mergeQuantities : List Quantity → List Quantity → Option (List Quantity)
  | [], [] => some []
  | q1 :: rest1, q2 :: rest2 =>
      match q1.data.pushAll q2.data, mergeQuantities rest1 rest2 with
      | some d, some rest => some (⟨d, q1.idx⟩ :: rest)
      | _, _ => none
  | _, _ => none

/-- `Storage::merge(other)`, with the visitor of the previous definition. -/
def Storage.merge (s other : Storage) : Option Storage :=
  if s.size = other.size then
    (mergeQuantities s.quantities other.quantities).map Storage.mk
  else
    none

/-! ## Neighbour search (`objects/finders/INeighbourFinder.h`, `BruteForce.h`) -/

/-- `NeighbourRecord` of the code: neighbour index and squared distance. -/
structure NeighbourRecord where
  index : ℕ
  distanceSqr : ℚ
deriving DecidableEq, Repr

/-- Strict order used to rank particles by smoothing length: smaller `h`
first, ties broken by the particle index. -/
def lexLtH (values : List Vec4) (j i : ℕ) : Prop :=
  (values.getD j 0).hc < (values.getD i 0).hc ∨
    ((values.getD j 0).hc = (values.getD i 0).hc ∧ j < i)

instance (values : List Vec4) (j i : ℕ) : Decidable (lexLtH values j i) := by
  unfold lexLtH
  infer_instance

/-- Modelled from the spec: `objects/finders/Order.h` (the `Order` permutation
class used by `INeighbourFinder::makeRankH`) is absent from the sources.  Per
the spec, "ranks are assigned by sort on *h*, ties broken by index"; the rank
of particle `i` is therefore the number of particles preceding it in this
order. -/
def rankH (values : List Vec4) (i : ℕ) : ℕ :=
  ((Finset.range values.length).filter (fun j => lexLtH values j i)).card

/-- `BruteForceFinder::findNeighbours(index, radius, neighbours, flags)`: the
reference rank is the rank of the queried particle when
`FIND_ONLY_SMALLER_H` is set and the particle count otherwise; every particle
whose rank is below the reference rank and whose squared distance from the
queried particle is below `radius²` is pushed. -/
def findNeighbours (values : List Vec4) (index : ℕ) (radius : ℚ)
    (findOnlySmallerH : Bool) : List NeighbourRecord :=
  (List.range values.length).filterMap (fun i =>
    if rankH values i < (if findOnlySmallerH then rankH values index else values.length) ∧
        getSqrLength (values.getD i 0 - values.getD index 0) < radius * radius then
      some ⟨i, getSqrLength (values.getD i 0 - values.getD index 0)⟩
    else
      none)

/-! ## Symmetric SPH evaluation (`solvers/ContinuitySolver.h`, `solvers/Accumulator.h`) -/

/-- Modelled from the spec: `sph/kernel/Kernel.h` (the `SymH` wrapper) is
absent from the sources.  Per the spec and the comment at its construction
site ("we symmetrize kernel by averaging smoothing lenghts"), the symmetrized
kernel gradient evaluates the underlying kernel gradient `gradW` at the
particle separation using the average of the two smoothing lengths. -/
def symGrad (gradW : Vec4 → ℚ → Vec4) (r1 r2 : Vec4) : Vec4 :=
  gradW (r1 - r2) ((r1.hc + r2.hc) / 2)

/-- The sequence of `accumulate(i, j, grad)` calls issued by the main cycle of
`ContinuitySolver::integrate`: for every particle `i` (in order), query the
lower-rank neighbours within `r[i][H] * kernel.radius()`, skip pairs whose
squared distance exceeds `sqr(kernel.radius() * hbar)` for the averaged
smoothing length `hbar`, and otherwise evaluate the symmetrized gradient and
call every equation term with it. -/
def processedCalls (gradW : Vec4 → ℚ → Vec4) (kernelRadius : ℚ)
    (r : List Vec4) : List (ℕ × ℕ × Vec4) :=
  (List.range r.length).flatMap (fun i =>
    (findNeighbours r i ((r.getD i 0).hc * kernelRadius) true).filterMap (fun neigh =>
      if getSqrLength (r.getD i 0 - r.getD neigh.index 0) >
          (kernelRadius * (((r.getD i 0).hc + (r.getD neigh.index 0).hc) / 2)) *
            (kernelRadius * (((r.getD i 0).hc + (r.getD neigh.index 0).hc) / 2)) then
        none
      else
        some (i, neigh.index, symGrad gradW (r.getD i 0) (r.getD neigh.index 0))))

/-- One `Accumulator::accumulate(i, j, grad)` call: the functor produces the
pair of contributions and `values[i] += v1; values[j] += v2` is performed. -/
def accumulate [AddCommMonoid V] (functor : ℕ → ℕ → Vec4 → V × V)
    (vals : ℕ → V) (c : ℕ × ℕ × Vec4) : ℕ → V :=
  fun k =>
    vals k + (if k = c.1 then (functor c.1 c.2.1 c.2.2).1 else 0) +
      (if k = c.2.1 then (functor c.1 c.2.1 c.2.2).2 else 0)

/-- Running an accumulator over a sequence of calls, starting from the
zero-filled buffer installed by `Accumulator::update`. -/
def runAccumulator [AddCommMonoid V] (functor : ℕ → ℕ → Vec4 → V × V)
    (calls : List (ℕ × ℕ × Vec4)) : ℕ → V :=
  calls.foldl (accumulate functor) (fun _ => 0)

/-- The accumulation effect of the main cycle of
`ContinuitySolver::integrate` on one equation-term accumulator. -/
def integrateMainCycle [AddCommMonoid V] (gradW : Vec4 → ℚ → Vec4) (kernelRadius : ℚ)
    (r : List Vec4) (functor : ℕ → ℕ → Vec4 → V × V) : ℕ → V :=
  runAccumulator functor (processedCalls gradW kernelRadius r)

/-! ## Barnes-Hut gravity (`gravity/BarnesHut.cpp`) -/

/-- Division of a vector by a scalar (`operator/` of the code). -/
def Vec4.divScalar (v : Vec4) (c : ℚ) : Vec4 := ⟨v.x / c, v.y / c, v.z / c, v.hc / c⟩

/-- A bounding box (`objects/geometry/Box.h`, absent from the sources): either
the distinguished empty box `Box::EMPTY()` or the box given by its two
corners. -/
inductive Box where
  | empty
  | bounds (lower upper : Vec4)
deriving DecidableEq, Repr

/-- `Box::size`: the extent of a non-empty box. -/
def Box.size : Box → Vec4
  | .empty => 0
  | .bounds lower upper => upper - lower

/-- `Box::center`: the center of a non-empty box. -/
def Box.center : Box → Vec4
  | .empty => 0
  | .bounds lower upper => (1 / 2 : ℚ) • (lower + upper)

/-- A node of the k-d tree (`objects/finders/KdTree.h`, absent from the
sources): every node carries a bounding box, a center of mass and the
multipole moments; a leaf references the particles it contains, an inner node
has two children.  The moments type is kept abstract (a parameter `M`), since
the claims about the tree walk do not depend on its contents. -/
inductive KdNode (M : Type) where
  | leaf (box : Box) (com : Vec4) (moments : M) (indices : List ℕ)
  | inner (box : Box) (com : Vec4) (moments : M) (left right : KdNode M)
deriving DecidableEq, Repr

namespace KdNode

/-- The bounding box of a node. -/
def box : KdNode M → Box
  | .leaf b _ _ _ => b
  | .inner b _ _ _ _ => b

/-- The center of mass of a node. -/
def com : KdNode M → Vec4
  | .leaf _ c _ _ => c
  | .inner _ c _ _ _ => c

/-- The multipole moments of a node. -/
def moments : KdNode M → M
  | .leaf _ _ mom _ => mom
  | .inner _ _ mom _ _ => mom

/-- `true` when no node of the tree carries the empty bounding box. -/
def hasNoEmptyBox : KdNode M → Bool
  | .leaf b _ _ _ => b ≠ Box.empty
  | .inner b _ _ left right => b ≠ Box.empty && left.hasNoEmptyBox && right.hasNoEmptyBox

/-- The particle indices contributed by the subtree during the walk: nodes
with an empty box are skipped, leaves contribute their particle range. -/
def collectIndices : KdNode M → List ℕ
  | .leaf b _ _ indices => if b = Box.empty then [] else indices
  | .inner b _ _ left right =>
      if b = Box.empty then [] else left.collectIndices ++ right.collectIndices

end KdNode

/-- The multipole acceptance criterion of `BarnesHut::evalImpl`:
`boxSizeSqr / (boxDistSqr + EPS) < thetaSqr`. -/
def openCriterion (thetaSqr eps : ℚ) (r0 : Vec4) (b : Box) : Prop :=
  getSqrLength b.size / (getSqrLength (b.center - r0) + eps) < thetaSqr

instance (thetaSqr eps : ℚ) (r0 : Vec4) (b : Box) :
    Decidable (openCriterion thetaSqr eps r0 b) := by
  unfold openCriterion
  infer_instance

/-- The exact pairwise contribution of particle `i` in the brute-force leg of
the walk: `m[i] * dr / pow<3>(getLength(dr))` for `dr = r[i] - r0`, and zero
for the omitted index (the `idx == i` continue).  `getLength` is the square
root of `getSqrLength`; the square root is supplied as `sqrtFn`. -/
def pairwiseTerm (r : List Vec4) (m : List ℚ) (sqrtFn : ℚ → ℚ)
    (r0 : Vec4) (idx i : ℕ) : Vec4 :=
  if idx = i then 0
  else
    let dr := r.getD i 0 - r0
    Vec4.divScalar ((m.getD i 0) • dr) ((sqrtFn (getSqrLength dr)) ^ 3)

/-- The accumulation performed by the top-down tree walk of
`BarnesHut::evalImpl`: nodes with the empty box are skipped; a node passing
the multipole acceptance criterion contributes the multipole expansion
(`evaluateGravity`, from the absent `gravity/Moments.h`, kept abstract)
evaluated at `r0 - node.com`, and its children are not visited; otherwise a
leaf contributes the exact pairwise sum (skipping `idx`) and an inner node the
contributions of both children. -/
def bhAccumulate (evalGrav : Vec4 → M → ℕ → Vec4) (order : ℕ) (thetaSqr eps : ℚ)
    (r : List Vec4) (m : List ℚ) (sqrtFn : ℚ → ℚ) (r0 : Vec4) (idx : ℕ) :
    KdNode M → Vec4
  | .leaf b com moments indices =>
      if b = Box.empty then 0
      else if openCriterion thetaSqr eps r0 b then evalGrav (r0 - com) moments order
      else (indices.map (pairwiseTerm r m sqrtFn r0 idx)).sum
  | .inner b com moments left right =>
      if b = Box.empty then 0
      else if openCriterion thetaSqr eps r0 b then evalGrav (r0 - com) moments order
      else
        bhAccumulate evalGrav order thetaSqr eps r m sqrtFn r0 idx left +
          bhAccumulate evalGrav order thetaSqr eps r m sqrtFn r0 idx right

/-- `BarnesHut::evalImpl(r0, idx)`: zero for an empty particle set, otherwise
the walk accumulation multiplied by the gravitational constant
(`Constants::gravity`, passed in as `gravity`). -/
def evalImpl (gravity : ℚ) (evalGrav : Vec4 → M → ℕ → Vec4) (order : ℕ)
    (thetaSqr eps : ℚ) (r : List Vec4) (m : List ℚ) (sqrtFn : ℚ → ℚ)
    (tree : KdNode M) (r0 : Vec4) (idx : ℕ) : Vec4 :=
  if r = [] then 0
  else gravity • bhAccumulate evalGrav order thetaSqr eps r m sqrtFn r0 idx tree

/-- The tree walk exactly as the specification sentence describes it, with no
mention of empty boxes: at every visited node the acceptance criterion is
computed; below `θ²` the multipole contribution at `pos - node.com` is added
and recursion stops; otherwise a leaf adds the exact pairwise terms (skipping
the omitted index) and an inner node recurses into both children. -/
def bhAccumulateSpec (evalGrav : Vec4 → M → ℕ → Vec4) (order : ℕ) (thetaSqr eps : ℚ)
    (r : List Vec4) (m : List ℚ) (sqrtFn : ℚ → ℚ) (r0 : Vec4) (idx : ℕ) :
    KdNode M → Vec4
  | .leaf b com moments indices =>
      if openCriterion thetaSqr eps r0 b then evalGrav (r0 - com) moments order
      else (indices.map (pairwiseTerm r m sqrtFn r0 idx)).sum
  | .inner b com moments left right =>
      if openCriterion thetaSqr eps r0 b then evalGrav (r0 - com) moments order
      else
        bhAccumulateSpec evalGrav order thetaSqr eps r m sqrtFn r0 idx left +
          bhAccumulateSpec evalGrav order thetaSqr eps r m sqrtFn r0 idx right

/-- Modelled from the spec: the brute-force gravity solver (absent from the
sources) sums the exact pairwise acceleration over all particles except the
omitted index and multiplies by the gravitational constant. -/
def bruteForceGravity (gravity : ℚ) (r : List Vec4) (m : List ℚ) (sqrtFn : ℚ → ℚ)
    (r0 : Vec4) (idx : ℕ) : Vec4 :=
  gravity • ((List.range r.length).map (pairwiseTerm r m sqrtFn r0 idx)).sum

instance : Inhabited Quantity := ⟨⟨.scal (.const []), -1⟩⟩

/-! ## Theorems: storage and clamping claims -/

/-- C5: after advancing, the per-quantity clamping step (`clampWithDerivative`)
returns the value clamped into the allowed interval `[lower, upper]` together
with the derivative, which is zero exactly when `(v ≥ upper and dv > 0)` or
`(v ≤ lower and dv < 0)` and equals `dv` otherwise. -/
theorem spec_C5_clampWithDerivative (v dv lo hi : ℚ) (hle : lo ≤ hi) :
    (clampWithDerivative v dv ⟨lo, hi⟩).1 = Range.clamp ⟨lo, hi⟩ v ∧
    lo ≤ (clampWithDerivative v dv ⟨lo, hi⟩).1 ∧
    (clampWithDerivative v dv ⟨lo, hi⟩).1 ≤ hi ∧
    (clampWithDerivative v dv ⟨lo, hi⟩).2 =
      (if (v ≥ hi ∧ dv > 0) ∨ (v ≤ lo ∧ dv < 0) then 0 else dv) := by
  refine ⟨rfl, ?_, ?_, ?_⟩
  · exact le_max_left _ _
  · have h1 : min v hi ≤ hi := min_le_right _ _
    exact max_le hle h1
  · unfold clampWithDerivative Range.upper Range.lower
    by_cases hcond : (v ≥ hi ∧ dv > 0) ∨ (v ≤ lo ∧ dv < 0)
    · simp [hcond]
    · simp [hcond]

/-- Witness for C5 at `v = 2`, `dv = 3`, interval `[0, 1]`. -/
theorem spec_C5_clampWithDerivative_witness :
    (0 : ℚ) ≤ 1 ∧
    ((clampWithDerivative 2 3 ⟨0, 1⟩).1 = Range.clamp ⟨0, 1⟩ 2 ∧
      (0 : ℚ) ≤ (clampWithDerivative 2 3 ⟨0, 1⟩).1 ∧
      (clampWithDerivative 2 3 ⟨0, 1⟩).1 ≤ 1 ∧
      (clampWithDerivative 2 3 ⟨0, 1⟩).2 =
        (if ((2 : ℚ) ≥ 1 ∧ (3 : ℚ) > 0) ∨ ((2 : ℚ) ≤ 0 ∧ (3 : ℚ) < 0) then 0 else 3)) :=
  ⟨by norm_num, spec_C5_clampWithDerivative 2 3 0 1 (by norm_num)⟩

/-- The `dynamic_cast` success table coincides with the order comparison: a
holder can be cast to a target order exactly when the target order does not
exceed the stored one. -/
theorem derivedFrom_iff (s t : TemporalEnum) :
    derivedFrom s t = true ↔ t.orderNum ≤ s.orderNum := by
  cases s <;> cases t <;> simp [derivedFrom, TemporalEnum.orderNum]

/-- C10: for a quantity stored with second temporal order, casting to `CONST`
and to `FIRST_ORDER` (at the stored value type) succeeds, and in general a
cast fails precisely when the value type differs or the requested order is
strictly higher than the stored order. -/
theorem spec_C10_cast (q : Quantity)
    (h2 : q.data.getTemporalEnum = TemporalEnum.SECOND_ORDER) :
    (q.cast q.data.getValueType TemporalEnum.CONST).isSome = true ∧
    (q.cast q.data.getValueType TemporalEnum.FIRST_ORDER).isSome = true ∧
    ∀ vt t, (q.cast vt t = none ↔
      (vt ≠ q.data.getValueType ∨ q.data.getTemporalEnum.orderNum < t.orderNum)) := by
  refine ⟨?_, ?_, ?_⟩
  · unfold Quantity.cast
    rw [if_pos ⟨rfl, by rw [h2]; rfl⟩]
    rfl
  · unfold Quantity.cast
    rw [if_pos ⟨rfl, by rw [h2]; rfl⟩]
    rfl
  · intro vt t
    unfold Quantity.cast
    by_cases hok : q.data.getValueType = vt ∧ derivedFrom q.data.getTemporalEnum t = true
    · rw [if_pos hok]
      simp only [reduceCtorEq, false_iff]
      push_neg
      refine ⟨hok.1.symm, ?_⟩
      exact (derivedFrom_iff _ _).mp hok.2
    · rw [if_neg hok]
      simp only [true_iff]
      by_cases hvt : q.data.getValueType = vt
      · right
        have hder : ¬ derivedFrom q.data.getTemporalEnum t = true := fun hd => hok ⟨hvt, hd⟩
        have := (derivedFrom_iff q.data.getTemporalEnum t).not.mp hder
        omega
      · left
        exact fun hvv => hvt hvv.symm

/-- Witness for C10 on a scalar second-order quantity. -/
theorem spec_C10_cast_witness :
    (Quantity.emplace ValueEnum.SCALAR TemporalEnum.SECOND_ORDER 0).data.getTemporalEnum =
      TemporalEnum.SECOND_ORDER ∧
    (((Quantity.emplace ValueEnum.SCALAR TemporalEnum.SECOND_ORDER 0).cast
        (Quantity.emplace ValueEnum.SCALAR TemporalEnum.SECOND_ORDER 0).data.getValueType
        TemporalEnum.CONST).isSome = true ∧
      ((Quantity.emplace ValueEnum.SCALAR TemporalEnum.SECOND_ORDER 0).cast
        (Quantity.emplace ValueEnum.SCALAR TemporalEnum.SECOND_ORDER 0).data.getValueType
        TemporalEnum.FIRST_ORDER).isSome = true ∧
      ∀ vt t, ((Quantity.emplace ValueEnum.SCALAR TemporalEnum.SECOND_ORDER 0).cast vt t = none ↔
        (vt ≠ (Quantity.emplace ValueEnum.SCALAR TemporalEnum.SECOND_ORDER 0).data.getValueType ∨
          (Quantity.emplace ValueEnum.SCALAR
            TemporalEnum.SECOND_ORDER 0).data.getTemporalEnum.orderNum < t.orderNum))) :=
  ⟨rfl, spec_C10_cast _ rfl⟩

/-- C6: cloning a storage with a selector yields a storage with the same
number of quantities and the same quantity ids in the same order; every
quantity is cloned holder-wise, and on each holder the buffers selected by the
flags are copied while unselected buffers come out empty, following the
per-order conditions of the three `Holder::clone` overrides. -/
theorem spec_C6_clone (s : Storage) (flags : TFlags) :
    (s.clone flags).size = s.size ∧
    (s.clone flags).quantities.map Quantity.getKey = s.quantities.map Quantity.getKey ∧
    (∀ i, (s.clone flags).quantities.getD i default =
      (s.quantities.getD i default).clone flags) ∧
    (∀ (α : Type) (v : List α),
      (Holder.const v).clone flags =
        Holder.const (if (flags.fConst || flags.fAll) = true then v else [])) ∧
    (∀ (α : Type) (v dv : List α),
      (Holder.firstOrder v dv).clone flags =
        Holder.firstOrder (if (flags.fConst || flags.fAll) = true then v else [])
          (if (flags.fFirst || flags.fHighest || flags.fAll) = true then dv else [])) ∧
    (∀ (α : Type) (v dv d2v : List α),
      (Holder.secondOrder v dv d2v).clone flags =
        Holder.secondOrder (if (flags.fConst || flags.fAll) = true then v else [])
          (if (flags.fFirst || flags.fAll) = true then dv else [])
          (if (flags.fSecond || flags.fHighest || flags.fAll) = true then d2v else [])) := by
  refine ⟨?_, ?_, ?_, ?_, ?_, ?_⟩
  · simp [Storage.clone, Storage.size]
  · simp [Storage.clone, Quantity.clone, Quantity.getKey]
  · intro i
    by_cases hi : i < s.quantities.length
    · unfold Storage.clone
      rw [List.getD_eq_getElem?_getD, List.getD_eq_getElem?_getD]
      rw [List.getElem?_map]
      rw [List.getElem?_eq_getElem hi]
      simp
    · unfold Storage.clone
      rw [List.getD_eq_getElem?_getD, List.getD_eq_getElem?_getD]
      rw [List.getElem?_map]
      rw [List.getElem?_eq_none (by simpa using Nat.le_of_not_lt hi)]
      show (default : Quantity) = Quantity.clone default flags
      show (default : Quantity) = ⟨QData.clone (default : Quantity).data flags, -1⟩
      unfold QData.clone
      show (default : Quantity) = ⟨.scal (Holder.clone (.const []) flags), -1⟩
      unfold Holder.clone Holder.conditionalClone
      simp only []
      cases hOn : (flags.fConst || flags.fAll) <;> simp [hOn, default]
  · intro α v
    unfold Holder.clone Holder.conditionalClone
    rfl
  · intro α v dv
    unfold Holder.clone Holder.conditionalClone
    rfl
  · intro α v dv d2v
    unfold Holder.clone Holder.conditionalClone
    rfl

/-- Counterexample to C8: inserting an id that already exists with a
different value type does not fail; the storage silently ends up with two
quantities under the same id, one scalar and one vector. -/
theorem spec_C8_insert_cex :
    (((Storage.mk []).insert ValueEnum.SCALAR TemporalEnum.CONST 0).insert
        ValueEnum.VECTOR TemporalEnum.CONST 0).size = 2 ∧
    ((((Storage.mk []).insert ValueEnum.SCALAR TemporalEnum.CONST 0).insert
        ValueEnum.VECTOR TemporalEnum.CONST 0).quantities.map Quantity.getKey = [0, 0]) ∧
    ((((Storage.mk []).insert ValueEnum.SCALAR TemporalEnum.CONST 0).insert
        ValueEnum.VECTOR TemporalEnum.CONST 0).quantities.map
          (fun q => q.data.getValueType) = [ValueEnum.SCALAR, ValueEnum.VECTOR]) :=
  ⟨rfl, rfl, rfl⟩

/-- C8 (amended): `Storage::insert` performs no check against the existing
quantities: it always appends a freshly emplaced quantity under the given id,
even when the id already exists with a different value type or order, and it
never extends an existing quantity; only lookups of a missing id are detected
(`getSingle` throws exactly when no stored quantity carries the id). -/
theorem spec_C8_insert (s : Storage) (vt : ValueEnum) (t : TemporalEnum) (key : ℤ) :
    (s.insert vt t key).quantities = s.quantities ++ [Quantity.emplace vt t key] ∧
    (s.insert vt t key).size = s.size + 1 ∧
    ∀ key2, (s.getSingle key2 = none ↔ ∀ q ∈ s.quantities, q.getKey ≠ key2) := by
  refine ⟨rfl, ?_, ?_⟩
  · simp [Storage.insert, Storage.size]
  · intro key2
    unfold Storage.getSingle
    rw [List.find?_eq_none]
    constructor
    · intro hnone q hq
      have := hnone q hq
      simpa using this
    · intro hall q hq
      simpa using hall q hq

/-- Counterexample to C7: merging a storage holding one quantity with an
empty storage trips the equal-quantity-count assertion instead of keeping the
quantity and zero-filling the missing buffers. -/
theorem spec_C7_merge_cex :
    (Storage.mk [Quantity.emplace ValueEnum.SCALAR TemporalEnum.CONST 0]).merge
      (Storage.mk []) = none := rfl

/-- Pointwise description of a successful `mergeQuantities` visit. -/
theorem mergeQuantities_spec (l1 l2 res : List Quantity)
    (hm : mergeQuantities l1 l2 = some res) :
    res.length = l1.length ∧ l2.length = l1.length ∧
    ∀ i, i < l1.length →
      (res.getD i default).idx = (l1.getD i default).idx ∧
      some (res.getD i default).data =
        (l1.getD i default).data.pushAll (l2.getD i default).data := by
  induction l1 generalizing l2 res with
  | nil =>
    cases l2 with
    | nil =>
      simp only [mergeQuantities, Option.some.injEq] at hm
      subst hm
      exact ⟨rfl, rfl, fun i hi => absurd hi (by simp)⟩
    | cons q2 rest2 => simp [mergeQuantities] at hm
  | cons q1 rest1 ih =>
    cases l2 with
    | nil => simp [mergeQuantities] at hm
    | cons q2 rest2 =>
      unfold mergeQuantities at hm
      cases hpush : q1.data.pushAll q2.data with
      | none => rw [hpush] at hm; simp at hm
      | some d =>
        cases hrest : mergeQuantities rest1 rest2 with
        | none => rw [hpush, hrest] at hm; simp at hm
        | some rest =>
          rw [hpush, hrest] at hm
          simp only [Option.some.injEq] at hm
          subst hm
          obtain ⟨hlen, hlen2, hpt⟩ := ih rest2 rest hrest
          refine ⟨by simp [hlen], by simp [hlen2], ?_⟩
          intro i hi
          cases i with
          | zero => exact ⟨rfl, by simp [List.getD]; exact hpush.symm⟩
          | succ n =>
            have hn : n < rest1.length := by simpa using hi
            simpa using hpt n hn

/-- C7 (amended): `Storage::merge` succeeds only when the two storages carry
the same number of quantities with pairwise compatible buffers; it then
concatenates every buffer of every quantity, the elements of the first
storage first, keeping the first storage's quantity ids; on holders a
successful `pushAll` appends each buffer of the second holder to the
corresponding buffer of the first, so particle counts add up. -/
theorem spec_C7_merge (s other result : Storage) (hm : s.merge other = some result) :
    result.size = s.size ∧ other.size = s.size ∧
    (∀ i, i < s.size →
      (result.quantities.getD i default).idx = (s.quantities.getD i default).idx ∧
      some (result.quantities.getD i default).data =
        (s.quantities.getD i default).data.pushAll
          (other.quantities.getD i default).data) ∧
    (∀ (α : Type) (h1 h2 h3 : Holder α), h1.pushAll h2 = some h3 →
      h3.values = h1.values ++ h2.values ∧
      h3.derivatives = h1.derivatives ++ h2.derivatives ∧
      h3.secondDerivatives = h1.secondDerivatives ++ h2.secondDerivatives) := by
  unfold Storage.merge at hm
  by_cases hsz : s.size = other.size
  · rw [if_pos hsz] at hm
    cases hq : mergeQuantities s.quantities other.quantities with
    | none => rw [hq] at hm; simp at hm
    | some res =>
      rw [hq] at hm
      simp only [Option.map] at hm
      injection hm with hm
      obtain ⟨hlen, hlen2, hpt⟩ := mergeQuantities_spec _ _ _ hq
      subst hm
      refine ⟨hlen, hlen2, hpt, ?_⟩
      intro α h1 h2 h3 hpush
      cases h1 <;> cases h2 <;>
        simp only [Holder.pushAll, Option.some.injEq, reduceCtorEq] at hpush <;>
        first
          | exact absurd hpush (by simp)
          | (subst hpush
             exact ⟨rfl, by simp [Holder.derivatives, Holder.secondDerivatives], by
               simp [Holder.derivatives, Holder.secondDerivatives]⟩)
  · rw [if_neg hsz] at hm
    simp at hm

/-- Concrete storages for the C7 witness. -/
def mergeW1 : Storage := ⟨[⟨QData.scal (Holder.const [1]), 5⟩]⟩

def mergeW2 : Storage := ⟨[⟨QData.scal (Holder.const [2, 3]), 5⟩]⟩

def mergeW3 : Storage := ⟨[⟨QData.scal (Holder.const [1, 2, 3]), 5⟩]⟩

/-- Witness for C7 (amended) on two one-quantity storages. -/
theorem spec_C7_merge_witness :
    mergeW1.merge mergeW2 = some mergeW3 ∧
    (mergeW3.size = mergeW1.size ∧ mergeW2.size = mergeW1.size ∧
      (∀ i, i < mergeW1.size →
        (mergeW3.quantities.getD i default).idx = (mergeW1.quantities.getD i default).idx ∧
        some (mergeW3.quantities.getD i default).data =
          (mergeW1.quantities.getD i default).data.pushAll
            (mergeW2.quantities.getD i default).data) ∧
      (∀ (α : Type) (h1 h2 h3 : Holder α), h1.pushAll h2 = some h3 →
        h3.values = h1.values ++ h2.values ∧
        h3.derivatives = h1.derivatives ++ h2.derivatives ∧
        h3.secondDerivatives = h1.secondDerivatives ++ h2.secondDerivatives)) :=
  ⟨rfl, spec_C7_merge mergeW1 mergeW2 mergeW3 rfl⟩

/-! ## Rank lemmas and neighbour-query theorems -/

theorem Vec4.sub_def (a b : Vec4) :
    a - b = ⟨a.x - b.x, a.y - b.y, a.z - b.z, a.hc - b.hc⟩ := rfl

theorem Vec4.smul_def (c : ℚ) (a : Vec4) :
    c • a = ⟨c * a.x, c * a.y, c * a.z, c * a.hc⟩ := rfl

theorem lexLtH_irrefl (values : List Vec4) (i : ℕ) : ¬ lexLtH values i i := by
  simp [lexLtH]

theorem lexLtH_trans (values : List Vec4) {i j k : ℕ}
    (h1 : lexLtH values i j) (h2 : lexLtH values j k) : lexLtH values i k := by
  rcases h1 with h1 | ⟨he1, hl1⟩
  · rcases h2 with h2 | ⟨he2, hl2⟩
    · exact Or.inl (lt_trans h1 h2)
    · exact Or.inl (he2 ▸ h1)
  · rcases h2 with h2 | ⟨he2, hl2⟩
    · exact Or.inl (he1 ▸ h2)
    · exact Or.inr ⟨he1.trans he2, lt_trans hl1 hl2⟩

/-- Ranks of in-range particles stay below the particle count. -/
theorem rankH_lt_length (values : List Vec4) (i : ℕ) (hi : i < values.length) :
    rankH values i < values.length := by
  have hss : (Finset.range values.length).filter (fun j => lexLtH values j i) ⊂
      Finset.range values.length := by
    refine Finset.ssubset_iff_of_subset (Finset.filter_subset _ _) |>.mpr ?_
    exact ⟨i, Finset.mem_range.mpr hi, by simp [lexLtH_irrefl]⟩
  simpa [rankH] using Finset.card_lt_card hss

/-- The rank is strictly monotone with respect to the (h, index) order. -/
theorem rankH_lt_of_lexLtH (values : List Vec4) {i j : ℕ}
    (hi : i < values.length) (hlex : lexLtH values i j) :
    rankH values i < rankH values j := by
  unfold rankH
  refine Finset.card_lt_card ?_
  rw [Finset.ssubset_iff_of_subset]
  · exact ⟨i, Finset.mem_filter.mpr ⟨Finset.mem_range.mpr hi, hlex⟩,
      fun hmem => lexLtH_irrefl values i (Finset.mem_filter.mp hmem).2⟩
  · intro k hk
    obtain ⟨hkr, hklex⟩ := Finset.mem_filter.mp hk
    exact Finset.mem_filter.mpr ⟨hkr, lexLtH_trans values hklex hlex⟩

/-- A lower rank implies a not-larger smoothing length. -/
theorem hc_le_of_rankH_lt (values : List Vec4) {i j : ℕ}
    (hj : j < values.length) (hrank : rankH values i < rankH values j) :
    (values.getD i 0).hc ≤ (values.getD j 0).hc := by
  by_contra hgt
  push_neg at hgt
  have : rankH values j < rankH values i :=
    rankH_lt_of_lexLtH values hj (Or.inl hgt)
  omega

/-- The indices returned by `findNeighbours` are the filtered range of
particle indices, in increasing order. -/
theorem findNeighbours_map_index (values : List Vec4) (index : ℕ) (radius : ℚ)
    (flag : Bool) :
    (findNeighbours values index radius flag).map NeighbourRecord.index =
      (List.range values.length).filter (fun i =>
        decide (rankH values i < (if flag then rankH values index else values.length) ∧
          getSqrLength (values.getD i 0 - values.getD index 0) < radius * radius)) := by
  unfold findNeighbours
  generalize List.range values.length = l
  induction l with
  | nil => rfl
  | cons x xs ih =>
    rw [List.filterMap_cons, List.filter_cons]
    by_cases hx : rankH values x < (if flag then rankH values index else values.length) ∧
        getSqrLength (values.getD x 0 - values.getD index 0) < radius * radius
    · rw [if_pos hx, if_pos (decide_eq_true hx), List.map_cons, ih]
    · rw [if_neg hx, if_neg (fun hd => hx (of_decide_eq_true hd)), ih]

/-- Membership in the neighbour list of `BruteForceFinder::findNeighbours`. -/
theorem findNeighbours_mem (values : List Vec4) (index : ℕ) (radius : ℚ) (flag : Bool)
    (rec : NeighbourRecord) :
    rec ∈ findNeighbours values index radius flag ↔
      (rec.index < values.length ∧
        rankH values rec.index < (if flag then rankH values index else values.length) ∧
        getSqrLength (values.getD rec.index 0 - values.getD index 0) < radius * radius ∧
        rec.distanceSqr = getSqrLength (values.getD rec.index 0 - values.getD index 0)) := by
  unfold findNeighbours
  rw [List.mem_filterMap]
  constructor
  · rintro ⟨i, hir, hsome⟩
    by_cases hcond : rankH values i < (if flag then rankH values index else values.length) ∧
        getSqrLength (values.getD i 0 - values.getD index 0) < radius * radius
    · rw [if_pos hcond] at hsome
      injection hsome with hsome
      subst hsome
      exact ⟨List.mem_range.mp hir, hcond.1, hcond.2, rfl⟩
    · rw [if_neg hcond] at hsome
      exact absurd hsome (by simp)
  · rintro ⟨hlen, hrank, hdist, hdsqr⟩
    refine ⟨rec.index, List.mem_range.mpr hlen, ?_⟩
    rw [if_pos ⟨hrank, hdist⟩, ← hdsqr]

/-- C3: with `FIND_ONLY_SMALLER_H`, the query for particle `index` returns
exactly the indices `j` of rank strictly below the rank of `index` (ranks by
sort on h, ties broken by index) with squared distance below `radius²`; the
result has no duplicate indices and never contains `index` itself. -/
theorem spec_C3_findLowerRank (values : List Vec4) (index : ℕ) (radius : ℚ) :
    (∀ j, (∃ rec ∈ findNeighbours values index radius true, rec.index = j) ↔
      (j < values.length ∧ rankH values j < rankH values index ∧
        getSqrLength (values.getD j 0 - values.getD index 0) < radius * radius)) ∧
    ((findNeighbours values index radius true).map NeighbourRecord.index).Nodup ∧
    (∀ rec ∈ findNeighbours values index radius true, rec.index ≠ index) := by
  refine ⟨?_, ?_, ?_⟩
  · intro j
    constructor
    · rintro ⟨rec, hrec, hj⟩
      subst hj
      have hmem := (findNeighbours_mem values index radius true rec).mp hrec
      exact ⟨hmem.1, hmem.2.1, hmem.2.2.1⟩
    · rintro ⟨hlen, hrank, hdist⟩
      refine ⟨⟨j, getSqrLength (values.getD j 0 - values.getD index 0)⟩, ?_, rfl⟩
      rw [findNeighbours_mem]
      exact ⟨hlen, hrank, hdist, rfl⟩
  · rw [findNeighbours_map_index]
    exact List.Nodup.filter _ (List.nodup_range _)
  · intro rec hrec heq
    have hmem := (findNeighbours_mem values index radius true rec).mp hrec
    rw [heq] at hmem
    have : rankH values index < rankH values index := hmem.2.1
    omega

/-- Counterexample to C4: without `FIND_ONLY_SMALLER_H` the query particle
itself is returned (its distance to itself, zero, is below the positive query
radius and its rank is below the particle count). -/
theorem spec_C4_findAll_cex :
    (⟨0, 0⟩ : NeighbourRecord) ∈ findNeighbours [⟨0, 0, 0, 1⟩] 0 1 false := by
  rw [findNeighbours_mem]
  refine ⟨by decide, by decide, ?_, ?_⟩
  · show getSqrLength ((⟨0, 0, 0, 1⟩ : Vec4) - ⟨0, 0, 0, 1⟩) < 1 * 1
    rw [Vec4.sub_def]
    unfold getSqrLength dot
    norm_num
  · show (0 : ℚ) = getSqrLength ((⟨0, 0, 0, 1⟩ : Vec4) - ⟨0, 0, 0, 1⟩)
    rw [Vec4.sub_def]
    unfold getSqrLength dot
    norm_num

/-- C4 (amended): without the flag, the query returns exactly the indices
whose squared distance from the query particle is below `radius²` — all
indices `j ≠ i` within the radius, but also the query particle `i` itself
whenever the radius is positive. -/
theorem spec_C4_findAll (values : List Vec4) (index : ℕ) (radius : ℚ)
    (hidx : index < values.length) :
    (∀ j, (∃ rec ∈ findNeighbours values index radius false, rec.index = j) ↔
      (j < values.length ∧
        getSqrLength (values.getD j 0 - values.getD index 0) < radius * radius)) ∧
    (0 < radius →
      ∃ rec ∈ findNeighbours values index radius false, rec.index = index) := by
  have hchar : ∀ j, (∃ rec ∈ findNeighbours values index radius false, rec.index = j) ↔
      (j < values.length ∧
        getSqrLength (values.getD j 0 - values.getD index 0) < radius * radius) := by
    intro j
    constructor
    · rintro ⟨rec, hrec, hj⟩
      subst hj
      have hmem := (findNeighbours_mem values index radius false rec).mp hrec
      exact ⟨hmem.1, hmem.2.2.1⟩
    · rintro ⟨hlen, hdist⟩
      refine ⟨⟨j, getSqrLength (values.getD j 0 - values.getD index 0)⟩, ?_, rfl⟩
      rw [findNeighbours_mem]
      exact ⟨hlen, rankH_lt_length values j hlen, hdist, rfl⟩
  refine ⟨hchar, ?_⟩
  intro hrad
  refine (hchar index).mpr ⟨hidx, ?_⟩
  have hz : values.getD index 0 - values.getD index 0 = ⟨0, 0, 0, 0⟩ := by
    rw [Vec4.sub_def]
    norm_num
  rw [hz]
  show (0 : ℚ) * 0 + 0 * 0 + 0 * 0 < radius * radius
  nlinarith

/-- Witness for C4 (amended) on a two-particle configuration. -/
theorem spec_C4_findAll_witness :
    (0 : ℕ) < ([⟨0, 0, 0, 1⟩, ⟨1, 0, 0, 1⟩] : List Vec4).length ∧
    ((∀ j, (∃ rec ∈ findNeighbours [⟨0, 0, 0, 1⟩, ⟨1, 0, 0, 1⟩] 0 2 false, rec.index = j) ↔
      (j < ([⟨0, 0, 0, 1⟩, ⟨1, 0, 0, 1⟩] : List Vec4).length ∧
        getSqrLength ((([⟨0, 0, 0, 1⟩, ⟨1, 0, 0, 1⟩] : List Vec4).getD j 0) -
          (([⟨0, 0, 0, 1⟩, ⟨1, 0, 0, 1⟩] : List Vec4).getD 0 0)) < 2 * 2)) ∧
    ((0 : ℚ) < 2 →
      ∃ rec ∈ findNeighbours [⟨0, 0, 0, 1⟩, ⟨1, 0, 0, 1⟩] 0 2 false, rec.index = 0)) :=
  ⟨by decide, spec_C4_findAll [⟨0, 0, 0, 1⟩, ⟨1, 0, 0, 1⟩] 0 2 (by decide)⟩

/-! ## Symmetric-pair theorems (C2 machinery) -/

theorem getSqrLength_sub_comm (u v : Vec4) :
    getSqrLength (u - v) = getSqrLength (v - u) := by
  cases u
  cases v
  rw [Vec4.sub_def, Vec4.sub_def]
  unfold getSqrLength dot
  ring

theorem filterMap_bind_comp (l : List α) (f : α → Option β) (g : β → Option γ) :
    (l.filterMap f).filterMap g = l.filterMap (fun x => (f x).bind g) := by
  induction l with
  | nil => rfl
  | cons x xs ih =>
    cases hf : f x with
    | none => simp [List.filterMap_cons, hf, ih]
    | some b =>
      cases hg : g b with
      | none => simp [List.filterMap_cons, hf, hg, ih]
      | some c => simp [List.filterMap_cons, hf, hg, ih]

theorem filter_filterMap_comp (l : List α) (f : α → Option β) (p : β → Bool) :
    (l.filterMap f).filter p =
      l.filterMap (fun x => (f x).bind (fun y => if p y then some y else none)) := by
  induction l with
  | nil => rfl
  | cons x xs ih =>
    cases hf : f x with
    | none => simp [List.filterMap_cons, List.filter_cons, hf, ih]
    | some b =>
      by_cases hp : p b
      · simp [List.filterMap_cons, List.filter_cons, hf, hp, ih]
      · simp [List.filterMap_cons, List.filter_cons, hf, hp, ih]

theorem filter_flatMap_comm (l : List α) (f : α → List β) (p : β → Bool) :
    (l.flatMap f).filter p = l.flatMap (fun x => (f x).filter p) := by
  induction l with
  | nil => rfl
  | cons x xs ih => simp [List.flatMap_cons, List.filter_append, ih]

theorem filterMap_eq_singleton_of_unique {l : List ℕ} {G : ℕ → Option γ} {b : ℕ} {v : γ}
    (hnd : l.Nodup) (hb : b ∈ l) (hnone : ∀ j ∈ l, j ≠ b → G j = none)
    (hsome : G b = some v) : l.filterMap G = [v] := by
  induction l with
  | nil => cases hb
  | cons x xs ih =>
    rw [List.filterMap_cons]
    rcases List.mem_cons.mp hb with hxb | hxs
    · subst hxb
      rw [hsome]
      have hxs0 : ∀ j ∈ xs, G j = none := by
        intro j hj
        refine hnone j (List.mem_cons_of_mem _ hj) ?_
        rintro rfl
        exact (List.nodup_cons.mp hnd).1 hj
      show v :: List.filterMap G xs = [v]
      rw [List.filterMap_eq_nil_iff.mpr hxs0]
    · have hxb : x ≠ b := by
        rintro rfl
        exact (List.nodup_cons.mp hnd).1 hxs
      rw [hnone x (List.mem_cons_self _ _) hxb]
      exact ih (List.nodup_cons.mp hnd).2 hxs
        (fun j hj => hnone j (List.mem_cons_of_mem _ hj))

theorem flatMap_eq_singleton_of_unique {l : List ℕ} {F : ℕ → List γ} {b : ℕ} {v : γ}
    (hnd : l.Nodup) (hb : b ∈ l) (hnil : ∀ j ∈ l, j ≠ b → F j = [])
    (hv : F b = [v]) : l.flatMap F = [v] := by
  induction l with
  | nil => cases hb
  | cons x xs ih =>
    rw [List.flatMap_cons]
    rcases List.mem_cons.mp hb with hxb | hxs
    · subst hxb
      rw [hv]
      have hxs0 : ∀ j ∈ xs, F j = [] := by
        intro j hj
        refine hnil j (List.mem_cons_of_mem _ hj) ?_
        rintro rfl
        exact (List.nodup_cons.mp hnd).1 hj
      have hFnil : xs.flatMap F = [] := List.flatMap_eq_nil_iff.mpr hxs0
      rw [hFnil, List.append_nil]
    · have hxb : x ≠ b := by
        rintro rfl
        exact (List.nodup_cons.mp hnd).1 hxs
      rw [hnil x (List.mem_cons_self _ _) hxb, List.nil_append]
      exact ih (List.nodup_cons.mp hnd).2 hxs
        (fun j hj => hnil j (List.mem_cons_of_mem _ hj))

/-- Folding `accumulate` over a call list adds, at every slot `k`, the sum of
the contributions the calls direct at `k`. -/
theorem foldl_accumulate_eq {V : Type} [AddCommMonoid V] (functor : ℕ → ℕ → Vec4 → V × V)
    (calls : List (ℕ × ℕ × Vec4)) (init : ℕ → V) (k : ℕ) :
    calls.foldl (accumulate functor) init k =
      init k + (calls.map (fun c =>
        (if k = c.1 then (functor c.1 c.2.1 c.2.2).1 else 0) +
          (if k = c.2.1 then (functor c.1 c.2.1 c.2.2).2 else 0))).sum := by
  induction calls generalizing init with
  | nil => simp
  | cons c cs ih =>
    rw [List.foldl_cons, ih (accumulate functor init c), List.map_cons, List.sum_cons]
    show init k + _ + _ + _ = init k + (_ + _ + _)
    abel

/-- C2: for distinct particles `a`, `b` with `rank(b) < rank(a)` (so `a` is
the one with the larger h-rank) whose distance is within the kernel support
radius times the averaged smoothing length, the main cycle of the symmetric
solver issues exactly one `accumulate` call for the pair — from `a`'s
lower-rank query — with the gradient symmetrized by averaging the two
smoothing lengths, and every equation-term accumulator adds the first
contribution of that call at slot `a` and the second at slot `b`. -/
theorem spec_C2_symmetricPair (gradW : Vec4 → ℚ → Vec4) (kernelRadius : ℚ)
    (r : List Vec4) (a b : ℕ)
    (ha : a < r.length) (hb : b < r.length)
    (hrank : rankH r b < rankH r a)
    (hkr : 0 ≤ kernelRadius)
    (hhb : 0 ≤ (r.getD b 0).hc)
    (hdist : getSqrLength (r.getD a 0 - r.getD b 0) <
      (kernelRadius * (((r.getD a 0).hc + (r.getD b 0).hc) / 2)) *
        (kernelRadius * (((r.getD a 0).hc + (r.getD b 0).hc) / 2))) :
    ((processedCalls gradW kernelRadius r).filter (fun c =>
        decide ((c.1 = a ∧ c.2.1 = b) ∨ (c.1 = b ∧ c.2.1 = a)))) =
      [(a, b, symGrad gradW (r.getD a 0) (r.getD b 0))] ∧
    symGrad gradW (r.getD a 0) (r.getD b 0) =
      gradW (r.getD a 0 - r.getD b 0) (((r.getD a 0).hc + (r.getD b 0).hc) / 2) ∧
    (∀ (V : Type) [AddCommMonoid V] (functor : ℕ → ℕ → Vec4 → V × V) (k : ℕ),
      integrateMainCycle gradW kernelRadius r functor k =
        ((processedCalls gradW kernelRadius r).map (fun c =>
          (if k = c.1 then (functor c.1 c.2.1 c.2.2).1 else 0) +
            (if k = c.2.1 then (functor c.1 c.2.1 c.2.2).2 else 0))).sum) := by
  have hab : a ≠ b := by
    rintro rfl
    omega
  have hhba : (r.getD b 0).hc ≤ (r.getD a 0).hc := hc_le_of_rankH_lt r ha hrank
  have hha : 0 ≤ (r.getD a 0).hc := le_trans hhb hhba
  have hbar_nonneg : 0 ≤ ((r.getD a 0).hc + (r.getD b 0).hc) / 2 := by linarith
  have hbar_le : ((r.getD a 0).hc + (r.getD b 0).hc) / 2 ≤ (r.getD a 0).hc := by linarith
  have hq1 : 0 ≤ kernelRadius * (((r.getD a 0).hc + (r.getD b 0).hc) / 2) :=
    mul_nonneg hkr hbar_nonneg
  have hq2 : kernelRadius * (((r.getD a 0).hc + (r.getD b 0).hc) / 2) ≤
      kernelRadius * (r.getD a 0).hc := mul_le_mul_of_nonneg_left hbar_le hkr
  have hdista : getSqrLength (r.getD b 0 - r.getD a 0) <
      ((r.getD a 0).hc * kernelRadius) * ((r.getD a 0).hc * kernelRadius) := by
    rw [getSqrLength_sub_comm]
    have hsq : (kernelRadius * (((r.getD a 0).hc + (r.getD b 0).hc) / 2)) *
        (kernelRadius * (((r.getD a 0).hc + (r.getD b 0).hc) / 2)) ≤
        (kernelRadius * (r.getD a 0).hc) * (kernelRadius * (r.getD a 0).hc) :=
      mul_le_mul hq2 hq2 hq1 (le_trans hq1 hq2)
    calc getSqrLength (r.getD a 0 - r.getD b 0) <
        (kernelRadius * (((r.getD a 0).hc + (r.getD b 0).hc) / 2)) *
          (kernelRadius * (((r.getD a 0).hc + (r.getD b 0).hc) / 2)) := hdist
      _ ≤ (kernelRadius * (r.getD a 0).hc) * (kernelRadius * (r.getD a 0).hc) := hsq
      _ = ((r.getD a 0).hc * kernelRadius) * ((r.getD a 0).hc * kernelRadius) := by ring
  refine ⟨?_, rfl, ?_⟩
  · unfold processedCalls
    rw [filter_flatMap_comm]
    apply flatMap_eq_singleton_of_unique (List.nodup_range _) (List.mem_range.mpr ha)
    · intro i hi hia
      rw [List.filter_eq_nil_iff]
      intro c hcmem hcpred
      obtain ⟨neigh, hneigh, hsome⟩ := List.mem_filterMap.mp hcmem
      have hc1 : c.1 = i ∧ c.2.1 = neigh.index := by
        by_cases hskip : getSqrLength (r.getD i 0 - r.getD neigh.index 0) >
            (kernelRadius * (((r.getD i 0).hc + (r.getD neigh.index 0).hc) / 2)) *
              (kernelRadius * (((r.getD i 0).hc + (r.getD neigh.index 0).hc) / 2))
        · rw [if_pos hskip] at hsome
          exact absurd hsome (by simp)
        · rw [if_neg hskip] at hsome
          injection hsome with hsome
          subst hsome
          exact ⟨rfl, rfl⟩
      rcases of_decide_eq_true hcpred with ⟨h1, h2⟩ | ⟨h1, h2⟩
      · exact hia (hc1.1 ▸ h1)
      · have hib : i = b := hc1.1 ▸ h1
        have hja : neigh.index = a := hc1.2 ▸ h2
        have hmem := (findNeighbours_mem r i ((r.getD i 0).hc * kernelRadius) true
          neigh).mp hneigh
        rw [hja] at hmem
        have h5 : rankH r a < rankH r i := by simpa using hmem.2.1
        rw [hib] at h5
        omega
    · rw [filter_filterMap_comp]
      unfold findNeighbours
      rw [filterMap_bind_comp]
      apply filterMap_eq_singleton_of_unique (List.nodup_range _) (List.mem_range.mpr hb)
      · intro j hj hjb
        by_cases hcond : rankH r j < (if (true : Bool) then rankH r a else r.length) ∧
            getSqrLength (r.getD j 0 - r.getD a 0) <
              ((r.getD a 0).hc * kernelRadius) * ((r.getD a 0).hc * kernelRadius)
        · rw [if_pos hcond, Option.some_bind]
          by_cases hskip : getSqrLength (r.getD a 0 - r.getD j 0) >
              (kernelRadius * (((r.getD a 0).hc + (r.getD j 0).hc) / 2)) *
                (kernelRadius * (((r.getD a 0).hc + (r.getD j 0).hc) / 2))
          · rw [if_pos hskip]
            rfl
          · rw [if_neg hskip, Option.some_bind, if_neg]
            simp only [decide_eq_true_eq, not_or, not_and]
            exact ⟨fun _ => hjb, fun hba2 => (hab hba2).elim⟩

        · rw [if_neg hcond]
          rfl
      · rw [if_pos ⟨by simpa using hrank, hdista⟩, Option.some_bind,
          if_neg (by simpa using le_of_lt hdist), Option.some_bind, if_pos]
        simp
  · intro V inst functor k
    unfold integrateMainCycle runAccumulator
    rw [foldl_accumulate_eq]
    show 0 + _ = _
    rw [zero_add]

/-- Concrete particle pair for the C2 witness: equal positions, smoothing
lengths 1 and 2. -/
def symW : List Vec4 := [⟨0, 0, 0, 1⟩, ⟨0, 0, 0, 2⟩]

/-- A concrete kernel gradient for the C2 witness. -/
def gradW0 : Vec4 → ℚ → Vec4 := fun _ _ => 0

/-- Witness for C2 on the two-particle configuration `symW`. -/
theorem spec_C2_symmetricPair_witness :
    ((1 : ℕ) < symW.length ∧ (0 : ℕ) < symW.length ∧ rankH symW 0 < rankH symW 1 ∧
      (0 : ℚ) ≤ 2 ∧ (0 : ℚ) ≤ (symW.getD 0 0).hc ∧
      getSqrLength (symW.getD 1 0 - symW.getD 0 0) <
        (2 * (((symW.getD 1 0).hc + (symW.getD 0 0).hc) / 2)) *
          (2 * (((symW.getD 1 0).hc + (symW.getD 0 0).hc) / 2))) ∧
    (((processedCalls gradW0 2 symW).filter (fun c =>
        decide ((c.1 = 1 ∧ c.2.1 = 0) ∨ (c.1 = 0 ∧ c.2.1 = 1)))) =
      [(1, 0, symGrad gradW0 (symW.getD 1 0) (symW.getD 0 0))] ∧
    symGrad gradW0 (symW.getD 1 0) (symW.getD 0 0) =
      gradW0 (symW.getD 1 0 - symW.getD 0 0) (((symW.getD 1 0).hc + (symW.getD 0 0).hc) / 2) ∧
    (∀ (V : Type) [AddCommMonoid V] (functor : ℕ → ℕ → Vec4 → V × V) (k : ℕ),
      integrateMainCycle gradW0 2 symW functor k =
        ((processedCalls gradW0 2 symW).map (fun c =>
          (if k = c.1 then (functor c.1 c.2.1 c.2.2).1 else 0) +
            (if k = c.2.1 then (functor c.1 c.2.1 c.2.2).2 else 0))).sum)) := by
  have hdistW : getSqrLength (symW.getD 1 0 - symW.getD 0 0) <
      (2 * (((symW.getD 1 0).hc + (symW.getD 0 0).hc) / 2)) *
        (2 * (((symW.getD 1 0).hc + (symW.getD 0 0).hc) / 2)) := by
    show getSqrLength ((⟨0, 0, 0, 2⟩ : Vec4) - ⟨0, 0, 0, 1⟩) <
      (2 * (((2 : ℚ) + 1) / 2)) * (2 * (((2 : ℚ) + 1) / 2))
    rw [Vec4.sub_def]
    unfold getSqrLength dot
    norm_num
  exact ⟨⟨by decide, by decide, by decide, by norm_num, by decide, hdistW⟩,
    spec_C2_symmetricPair gradW0 2 symW 1 0 (by decide) (by decide) (by decide)
      (by norm_num) (by decide) hdistW⟩

/-! ## Barnes-Hut theorems -/

/-- On a tree without empty boxes, the implemented walk and the walk described
by the specification sentence coincide node by node. -/
theorem bhAccumulate_eq_spec {M : Type} (evalGrav : Vec4 → M → ℕ → Vec4) (order : ℕ)
    (thetaSqr eps : ℚ) (r : List Vec4) (m : List ℚ) (sqrtFn : ℚ → ℚ)
    (r0 : Vec4) (idx : ℕ) :
    ∀ tree : KdNode M, tree.hasNoEmptyBox = true →
      bhAccumulate evalGrav order thetaSqr eps r m sqrtFn r0 idx tree =
        bhAccumulateSpec evalGrav order thetaSqr eps r m sqrtFn r0 idx tree := by
  intro tree
  induction tree with
  | leaf b com moments indices =>
    intro hbox
    have hbne : b ≠ Box.empty := by
      simpa [KdNode.hasNoEmptyBox] using hbox
    unfold bhAccumulate bhAccumulateSpec
    rw [if_neg hbne]
  | inner b com moments left right ihl ihr =>
    intro hbox
    simp only [KdNode.hasNoEmptyBox, Bool.and_eq_true, decide_eq_true_eq] at hbox
    obtain ⟨⟨hbne, hlb⟩, hrb⟩ := hbox
    unfold bhAccumulate bhAccumulateSpec
    rw [if_neg hbne]
    by_cases hopen : openCriterion thetaSqr eps r0 b
    · rw [if_pos hopen, if_pos hopen]
    · rw [if_neg hopen, if_neg hopen, ihl hlb, ihr hrb]

/-- C1: on a non-empty particle set and a tree whose nodes all carry proper
bounding boxes, `BarnesHut::evalImpl` computes exactly the top-down walk the
specification describes — multipole contribution at `pos − node.com` without
recursion when the acceptance criterion holds, exact pairwise sums (skipping
the omitted index) at leaves, recursion into both children at inner nodes —
with the accumulated vector multiplied by the gravitational constant. -/
theorem spec_C1_evalImpl {M : Type} (gravity : ℚ) (evalGrav : Vec4 → M → ℕ → Vec4)
    (order : ℕ) (thetaSqr eps : ℚ) (r : List Vec4) (m : List ℚ) (sqrtFn : ℚ → ℚ)
    (tree : KdNode M) (r0 : Vec4) (idx : ℕ)
    (hr : r ≠ []) (hbox : tree.hasNoEmptyBox = true) :
    evalImpl gravity evalGrav order thetaSqr eps r m sqrtFn tree r0 idx =
      gravity • bhAccumulateSpec evalGrav order thetaSqr eps r m sqrtFn r0 idx tree := by
  unfold evalImpl
  rw [if_neg hr]
  rw [bhAccumulate_eq_spec evalGrav order thetaSqr eps r m sqrtFn r0 idx tree hbox]

/-- The one-leaf tree used by the gravity witnesses. -/
def bhW : KdNode Unit := KdNode.leaf (Box.bounds 0 0) 0 () [0]

/-- Witness for C1 on a one-particle, one-leaf tree. -/
theorem spec_C1_evalImpl_witness :
    (([⟨0, 0, 0, 1⟩] : List Vec4) ≠ [] ∧ bhW.hasNoEmptyBox = true) ∧
    evalImpl 1 (fun _ _ _ => 0) 3 0 1 [⟨0, 0, 0, 1⟩] [1] id bhW 0 0 =
      (1 : ℚ) • bhAccumulateSpec (fun _ _ _ => 0) 3 0 1 [⟨0, 0, 0, 1⟩] [1] id 0 0 bhW :=
  ⟨⟨by decide, by decide⟩,
    spec_C1_evalImpl 1 (fun _ _ _ => 0) 3 0 1 [⟨0, 0, 0, 1⟩] [1] id bhW 0 0
      (by decide) (by decide)⟩

/-- With `θ = 0` the acceptance test compares a non-negative quotient against
zero and therefore never fires. -/
theorem openCriterion_theta_zero (eps : ℚ) (r0 : Vec4) (b : Box) (heps : 0 < eps) :
    ¬ openCriterion 0 eps r0 b := by
  unfold openCriterion
  intro hlt
  have h1 : 0 ≤ getSqrLength b.size := getSqrLength_nonneg _
  have h2 : 0 < getSqrLength (b.center - r0) + eps := by
    have := getSqrLength_nonneg (b.center - r0)
    linarith
  have h3 : 0 ≤ getSqrLength b.size / (getSqrLength (b.center - r0) + eps) :=
    div_nonneg h1 (le_of_lt h2)
  linarith

/-- With `θ = 0` the walk reduces to the pairwise sums over the particle
ranges of the visited leaves. -/
theorem bhAccumulate_theta_zero {M : Type} (evalGrav : Vec4 → M → ℕ → Vec4) (order : ℕ)
    (eps : ℚ) (r : List Vec4) (m : List ℚ) (sqrtFn : ℚ → ℚ) (r0 : Vec4) (idx : ℕ)
    (heps : 0 < eps) :
    ∀ tree : KdNode M,
      bhAccumulate evalGrav order 0 eps r m sqrtFn r0 idx tree =
        ((KdNode.collectIndices tree).map (pairwiseTerm r m sqrtFn r0 idx)).sum := by
  intro tree
  induction tree with
  | leaf b com moments indices =>
    unfold bhAccumulate KdNode.collectIndices
    by_cases hbe : b = Box.empty
    · rw [if_pos hbe, if_pos hbe]
      rfl
    · rw [if_neg hbe, if_neg hbe, if_neg (openCriterion_theta_zero eps r0 b heps)]
  | inner b com moments left right ihl ihr =>
    unfold bhAccumulate KdNode.collectIndices
    by_cases hbe : b = Box.empty
    · rw [if_pos hbe, if_pos hbe]
      rfl
    · rw [if_neg hbe, if_neg hbe, if_neg (openCriterion_theta_zero eps r0 b heps),
        ihl, ihr, List.map_append, List.sum_append]

/-- C9: with opening parameter `θ = 0` the multipole branch is never taken —
the acceptance test is false for every node — and, whenever the walk reaches
every particle exactly once, `evalImpl` equals the brute-force pairwise sum
over all particles except the omitted index. -/
theorem spec_C9_thetaZero {M : Type} (gravity : ℚ) (evalGrav : Vec4 → M → ℕ → Vec4)
    (order : ℕ) (eps : ℚ) (r : List Vec4) (m : List ℚ) (sqrtFn : ℚ → ℚ)
    (tree : KdNode M) (r0 : Vec4) (idx : ℕ)
    (heps : 0 < eps) (hr : r ≠ [])
    (hperm : (KdNode.collectIndices tree).Perm (List.range r.length)) :
    (∀ b : Box, ¬ openCriterion 0 eps r0 b) ∧
    evalImpl gravity evalGrav order 0 eps r m sqrtFn tree r0 idx =
      bruteForceGravity gravity r m sqrtFn r0 idx := by
  refine ⟨fun b => openCriterion_theta_zero eps r0 b heps, ?_⟩
  unfold evalImpl bruteForceGravity
  rw [if_neg hr]
  rw [bhAccumulate_theta_zero evalGrav order eps r m sqrtFn r0 idx heps tree]
  congr 1
  exact List.Perm.sum_eq (hperm.map _)

/-- Witness for C9 on a one-particle, one-leaf tree. -/
theorem spec_C9_thetaZero_witness :
    ((0 : ℚ) < 1 ∧ ([⟨0, 0, 0, 1⟩] : List Vec4) ≠ [] ∧
      (KdNode.collectIndices bhW).Perm (List.range ([⟨0, 0, 0, 1⟩] : List Vec4).length)) ∧
    ((∀ b : Box, ¬ openCriterion 0 1 0 b) ∧
      evalImpl 1 (fun _ _ _ => 0) 3 0 1 [⟨0, 0, 0, 1⟩] [1] id bhW 0 0 =
        bruteForceGravity 1 [⟨0, 0, 0, 1⟩] [1] id 0 0) :=
  ⟨⟨by norm_num, by decide, by decide⟩,
    spec_C9_thetaZero 1 (fun _ _ _ => 0) 3 1 [⟨0, 0, 0, 1⟩] [1] id bhW 0 0
      (by norm_num) (by decide) (by decide)⟩
